import Mathlib

/-!
Shallow embedding of the parsing-and-execution core of `src/simple_shell.py`
(a simple command shell): the tokenizer, the token parser, the pipeline
executor, and the background-job table, together with theorems settling the
specification's claims about them.

Conventions of the embedding:
* Python strings are Lean `String`s; token streams are `List String`.
* Python dict command descriptors (keys `argv`, `in`, `out`, `append`, `bg`)
  become the structure `Cmd`; the `in` key is the field `inp` (`in` is a
  Lean keyword).
* Python truthiness of the optional path fields (`None` and the empty string
  are falsy) is modelled by `truthyOpt`.
* OS effects of the executor (process launches, kills, file opens, printed
  messages, job registration) are made explicit: the environment `Env`
  decides the outcome of each launch / open / wait, and `run_pipeline`
  returns a record of every effect it performed next to its return value.
-/

namespace SimpleShell

/-! ## Tokenizer (`tokenize`) -/

/-- The double-quote character. -/
def dquote : Char := Char.ofNat 34

/-- The single-quote character. -/
def squote : Char := Char.ofNat 39

/-- Membership in the single-character operator list of the tokenizer:
the check `ch in list (pipe, lt, gt, amp)`. -/
def isSpecial (c : Char) : Bool :=
  c = '|' || c = '<' || c = '>' || c = '&'

/-- The quote-character check `ch in (dquote, squote)`. -/
def isQuote (c : Char) : Bool :=
  c = dquote || c = squote

/-- The accumulation condition of the bareword loop: not whitespace, not a
single-character operator, not a quote. -/
def isWordChar (c : Char) : Bool :=
  !c.isWhitespace && !isSpecial c && !isQuote c

/-- The function `tokenize(line)` over the line's character list, producing each token as
a character list.  Mirrors the `while i < L` scan: skip whitespace (the
source's `isspace`, modelled by `Char.isWhitespace`); `>>` by
one-character lookahead; single-character operators; a quote consumes
verbatim up to the matching quote (skipping the closing quote when present)
and emits the content; otherwise a bareword run. -/
def tokenize : List Char → List (List Char)
  | [] => []
  | c :: rest =>
    if c.isWhitespace then tokenize rest
    else if c = '>' && rest.head? = some '>' then
      ['>', '>'] :: tokenize rest.tail
    else if isSpecial c then
      [c] :: tokenize rest
    else if isQuote c then
      rest.takeWhile (· != c) :: tokenize ((rest.dropWhile (· != c)).drop 1)
    else
      (c :: rest.takeWhile isWordChar) :: tokenize (rest.dropWhile isWordChar)
termination_by l => l.length
decreasing_by
  all_goals simp only [List.length_cons, List.length_drop, List.length_tail]
  all_goals first
    | omega
    | (have h1 := (@List.dropWhile_sublist Char rest (fun x => x != c)).length_le
       omega)
    | (have h2 := (@List.dropWhile_sublist Char rest isWordChar).length_le
       omega)

/-- The tokenizer on a `String`, tokens as `String`s. -/
def tokenizeStr (s : String) : List String :=
  (tokenize s.data).map fun l => ⟨l⟩

/-- A parsed command descriptor, mirroring the dict
`cur = dict (argv, in, out, append, bg)` built by `parse_tokens`. -/
structure Cmd where
  argv : List String
  inp : Option String
  out : Option String
  append : Bool
  bg : Bool
deriving Repr, DecidableEq

/-- The fresh accumulator `dict (argv := [], in := None, out := None,
append := False, bg := False)`. -/
def emptyCmd : Cmd := ⟨[], none, none, false, false⟩

instance : Inhabited Cmd := ⟨emptyCmd⟩

/-- Python truthiness of an optional string: `None` and `""` are falsy. -/
def truthyOpt : Option String → Bool
  | none => false
  | some s => s != ""

/-- The guard of the final `if cur["argv"] or cur["in"] or cur["out"] or
cur["bg"]` in `parse_tokens` (Python truthiness). -/
def keepCmd (c : Cmd) : Bool :=
  !c.argv.isEmpty || truthyOpt c.inp || truthyOpt c.out || c.bg

/-- End of the token loop: the current accumulator is appended only if
`keepCmd` holds. -/
def finalize (c : Cmd) : List Cmd :=
  if keepCmd c then [c] else []

/-- The body of the `while i < L` loop of `parse_tokens`, recursing on the
remaining tokens with the current accumulator.  A redirection operator as the
last token leaves the accumulator unchanged (Python advances `i` by 2 past
the end and the loop exits). -/
def parseLoop : List String → Cmd → List Cmd
  | [], cur => finalize cur
  | t :: rest, cur =>
    if t = "|" then
      cur :: parseLoop rest emptyCmd
    else if t = "<" then
      match rest with
      | [] => finalize cur
      | p :: r => parseLoop r { cur with inp := some p }
    else if t = ">" then
      match rest with
      | [] => finalize cur
      | p :: r => parseLoop r { cur with out := some p, append := false }
    else if t = ">>" then
      match rest with
      | [] => finalize cur
      | p :: r => parseLoop r { cur with out := some p, append := true }
    else if t = "&" then
      parseLoop rest { cur with bg := true }
    else
      parseLoop rest { cur with argv := cur.argv ++ [t] }

/-- The function `parse_tokens(tokens)`: convert a list of tokens into command
descriptors. -/
def parse_tokens (tokens : List String) : List Cmd :=
  parseLoop tokens emptyCmd

/-- A token is an operator of the parser. -/
def isOpTok (t : String) : Prop :=
  t = "|" ∨ t = "<" ∨ t = ">" ∨ t = ">>" ∨ t = "&"

instance (t : String) : Decidable (isOpTok t) := by
  unfold isOpTok; infer_instance

/-- One piece of a single command's token stream: either an argument word or
an output redirection (append flag, path). -/
inductive Seg where
  | word : String → Seg
  | redir : Bool → String → Seg

/-- The tokens contributed by one piece. -/
def segTokens : Seg → List String
  | .word w => [w]
  | .redir app path => [if app then ">>" else ">", path]

/-- The tokens of a command segment list. -/
def segsTokens (items : List Seg) : List String :=
  (items.map segTokens).flatten

/-- The argument words of a segment list, in order. -/
def segWords (items : List Seg) : List String :=
  items.filterMap fun s => match s with
    | .word w => some w
    | .redir _ _ => none

/-- The output redirections of a segment list, in order. -/
def segRedirs (items : List Seg) : List (Bool × String) :=
  items.filterMap fun s => match s with
    | .word _ => none
    | .redir a p => some (a, p)

/-- The output path after a run of output redirections starting from `o`:
the last redirection's path when one exists. -/
def lastOut (rs : List (Bool × String)) (o : Option String) : Option String :=
  match rs.getLast? with
  | some ap => some ap.2
  | none => o

/-- The append flag after a run of output redirections starting from `a`. -/
def lastApp (rs : List (Bool × String)) (a : Bool) : Bool :=
  match rs.getLast? with
  | some ap => ap.1
  | none => a

/-! ## Job table (`_register_job`, `_update_job_status`, `fg` status write) -/

/-- A job status string: `running`, `stopped`, `done ({code})` written by the
child notifier, or the bare `done` written by the `fg` builtin (modelled as
`done none`). -/
inductive Status where
  | running : Status
  | stopped : Status
  | done : Option Int → Status
deriving Repr, DecidableEq

/-- One entry of the `_jobs` table: `dict (pids, cmdline, status)`. -/
structure Job where
  pids : List Nat
  cmdline : String
  status : Status
deriving Repr, DecidableEq

/-- The module-level job state: `_next_job_id` and the insertion-ordered
`_jobs` mapping. -/
structure JobState where
  next : Nat
  jobs : List (Nat × Job)
deriving Repr, DecidableEq

/-- The state at interpreter start: `_next_job_id = 1`, empty table. -/
def initialJobState : JobState := ⟨1, []⟩

/-- The function `_register_job(pids, cmdline)`: take the current `_next_job_id`,
increment it, insert the new running job, return the id. -/
def _register_job (js : JobState) (pids : List Nat) (cmdline : String) :
    Nat × JobState :=
  (js.next, ⟨js.next + 1, js.jobs ++ [(js.next, ⟨pids, cmdline, .running⟩)]⟩)

/-- The scan of `_update_job_status`: the first job whose pid set contains
`pid` gets status `done (exitcode)` when an exit code is present, else
`stopped`; later entries are untouched (the Python loop returns on the
first match). -/
def updateList : List (Nat × Job) → Nat → Option Int → List (Nat × Job)
  | [], _, _ => []
  | (jid, j) :: rest, pid, exitcode =>
    if pid ∈ j.pids then
      (jid, { j with status := match exitcode with
                               | some c => .done (some c)
                               | none => .stopped }) :: rest
    else
      (jid, j) :: updateList rest pid exitcode

/-- The function `_update_job_status(pid, exitcode)` acting on the job state. -/
def _update_job_status (js : JobState) (pid : Nat) (exitcode : Option Int) :
    JobState :=
  ⟨js.next, updateList js.jobs pid exitcode⟩

/-- The final status write of `_builtin_fg`: the looked-up job's status is
set to the bare string `done`. -/
def fgSetDone (js : JobState) (jid : Nat) : JobState :=
  ⟨js.next, js.jobs.map fun (i, j) =>
    if i = jid then (i, { j with status := .done none }) else (i, j)⟩

/-- An event touching the job state during one interpreter lifetime. -/
inductive JobEv where
  | reg (pids : List Nat) (cmdline : String)
  | upd (pid : Nat) (exitcode : Option Int)
  | fgDone (jid : Nat)

/-- Apply one event to the job state. -/
def stepJob (js : JobState) : JobEv → JobState
  | .reg pids cmdline => (_register_job js pids cmdline).2
  | .upd pid exitcode => _update_job_status js pid exitcode
  | .fgDone jid => fgSetDone js jid

/-- The job identifiers handed out by `_register_job` along an event
sequence, in registration order. -/
def issuedIds : JobState → List JobEv → List Nat
  | _, [] => []
  | js, .reg pids cmdline :: rest =>
    js.next :: issuedIds (stepJob js (.reg pids cmdline)) rest
  | js, e :: rest => issuedIds (stepJob js e) rest

/-- Number of registrations in an event sequence. -/
def countReg (evs : List JobEv) : Nat :=
  evs.countP fun e => match e with
    | .reg _ _ => true
    | _ => false

/-- Rank of a status along the claimed progression
`running → stopped → done`. -/
def rank : Status → Nat
  | .running => 0
  | .stopped => 1
  | .done _ => 2

/-- The status written by one notifier update for a job owning the reaped
pid `pc.1`, given exit code `pc.2`; a job not owning the pid is
unchanged. -/
def updStatus (p : Nat) (s : Status) (pc : Nat × Option Int) : Status :=
  if pc.1 = p then
    match pc.2 with
    | some k => .done (some k)
    | none => .stopped
  else s

/-- Apply a sequence of notifier updates (reaped pid, exit code) to the job
state. -/
def applyUpds (js : JobState) (t : List (Nat × Option Int)) : JobState :=
  t.foldl (fun s pc => _update_job_status s pc.1 pc.2) js

/-- A job table holding one job with a single pid. -/
def singleJob (jid p : Nat) (cl : String) (s : Status) : JobState :=
  ⟨jid + 1, [(jid, ⟨[p], cl, s⟩)]⟩

/-- The status of the first job in the table. -/
def statusHead (js : JobState) : Status :=
  ((js.jobs.headD (0, ⟨[], "", .running⟩)).2).status

/-! ## Pipeline executor (`run_pipeline`) -/

/-- Outcome of one `subprocess.Popen` call: the `FileNotFoundError` branch,
the generic exception branch, or a successful launch with a pid. -/
inductive SpawnRes where
  | notFound : SpawnRes
  | execErr : SpawnRes
  | ok : Nat → SpawnRes

/-- The OS environment the executor runs against: the launch outcome for
each stage index, success of the redirection opens, and each pid's exit
code as returned by `wait`. -/
structure Env where
  spawn : Nat → SpawnRes
  openR : String → Bool
  openW : String → Bool → Bool
  wait : Nat → Int

/-- Mutable state of the launch loop: `procs` (pids in launch order) plus a
log of printed messages and of attempted redirection opens (path with
success flag; for writes also the append flag).
File handles themselves are abstracted to the success of the open: an open
that fails returns `None` in the source, which `Popen` then treats as
stream inheritance. -/
structure LoopSt where
  procs : List Nat
  printed : List String
  openedR : List (String × Bool)
  openedW : List (String × Bool × Bool)
deriving Repr, DecidableEq

/-- The empty loop state at entry to `run_pipeline`. -/
def initSt : LoopSt := ⟨[], [], [], []⟩

/-- Result of the launch loop: aborted by a launch exception (the source
kills every pid in `procs` and returns), or finished. -/
inductive LoopRes where
  | aborted : LoopSt → LoopRes
  | finished : LoopSt → LoopRes

/-- The redirection phase of one iteration of the launch loop: at stage 0
with a truthy `in` path attempt the input open, at the last stage
(`idx = n - 1`) with a truthy `out` path attempt the output open; a failed
open prints an error and returns `None`, which degrades to an inherited
stream at launch. -/
def stageOpens (env : Env) (n idx : Nat) (c : Cmd) (st : LoopSt) : LoopSt :=
  let st1 :=
    if idx = 0 && truthyOpt c.inp then
      let path := c.inp.getD ""
      let okR := env.openR path
      { st with
        openedR := st.openedR ++ [(path, okR)],
        printed := st.printed ++
          if okR then [] else ["redirection error (input)"] }
    else st
  if idx = n - 1 && truthyOpt c.out then
    let path := c.out.getD ""
    let okW := env.openW path c.append
    { st1 with
      openedW := st1.openedW ++ [(path, c.append, okW)],
      printed := st1.printed ++
        if okW then [] else ["redirection error (output)"] }
  else st1

/-- The `for idx, cmd in enumerate(cmds)` launch loop of `run_pipeline`:
skip empty-`argv` commands; perform the redirection opens (`stageOpens`);
then launch.  `n` is `len(cmds)`.  A `FileNotFoundError` prints
`argv[0]: command not found` and aborts; any other launch exception prints
a failure message and aborts. -/
def runLoop (env : Env) (n : Nat) : Nat → List Cmd → LoopSt → LoopRes
  | _, [], st => .finished st
  | idx, c :: rest, st =>
    if c.argv.isEmpty then
      runLoop env n (idx + 1) rest st
    else
      let st2 := stageOpens env n idx c st
      match env.spawn idx with
      | .notFound =>
        .aborted { st2 with
          printed := st2.printed ++ [c.argv.headD "" ++ ": command not found"] }
      | .execErr =>
        .aborted { st2 with printed := st2.printed ++ ["failed to execute"] }
      | .ok pid =>
        runLoop env n (idx + 1) rest { st2 with procs := st2.procs ++ [pid] }

/-- The loop state carried by a loop result. -/
def resSt : LoopRes → LoopSt
  | .aborted st => st
  | .finished st => st

/-- The `info` half of `run_pipeline`'s return value: an exit code
(foreground) or a job id (background). -/
inductive RunInfo where
  | exitCode : Int → RunInfo
  | jobId : Nat → RunInfo
deriving Repr, DecidableEq

/-- Everything observable about one `run_pipeline` call: its return value
`(is_background, info)` and the effects it performed — pids launched, pids
killed during abort cleanup, messages printed, redirection opens attempted,
and the job state after the call. -/
structure RunOut where
  ret : Bool × Option RunInfo
  launched : List Nat
  killed : List Nat
  printed : List String
  openedR : List (String × Bool)
  openedW : List (String × Bool × Bool)
  jobs : JobState

/-- The function `run_pipeline(cmds)` against environment `env` and job state `js`.
On abort every launched pid is killed and `(False, None)` returned; with no
launched process `(False, None)`; with the last command's `bg` flag set the
pids are registered as one job whose id is announced and returned; else the
last launched process is waited on and its exit code returned.  (The
`KeyboardInterrupt` branch of the wait and the `finally` file-closing are
outside this model.) -/
def run_pipeline (env : Env) (js : JobState) (cmds : List Cmd) : RunOut :=
  match runLoop env cmds.length 0 cmds initSt with
  | .aborted st =>
    ⟨(false, none), st.procs, st.procs, st.printed, st.openedR, st.openedW, js⟩
  | .finished st =>
    if st.procs.isEmpty then
      ⟨(false, none), st.procs, [], st.printed, st.openedR, st.openedW, js⟩
    else
      let cmdline := String.intercalate " " (cmds.map (·.argv)).flatten
      if (cmds.getLastD emptyCmd).bg then
        let r := _register_job js st.procs cmdline
        ⟨(true, some (.jobId r.1)), st.procs, [],
         st.printed ++
           ["[job " ++ toString r.1 ++ "] " ++ toString (st.procs.headD 0)],
         st.openedR, st.openedW, r.2⟩
      else
        ⟨(false, some (.exitCode (env.wait (st.procs.getLastD 0)))),
         st.procs, [], st.printed, st.openedR, st.openedW, js⟩

/-- A benign concrete environment: every launch succeeds with pid 0, every
open succeeds, every wait returns 0. -/
def envOk : Env := ⟨fun _ => .ok 0, fun _ => true, fun _ _ => true, fun _ => 0⟩

/-- A concrete environment in which every launch raises
`FileNotFoundError`. -/
def envNF : Env := ⟨fun _ => .notFound, fun _ => true, fun _ _ => true, fun _ => 0⟩

/-- A concrete environment in which every launch succeeds with pid 100 but
every open-for-read fails. -/
def envROpenFail : Env :=
  ⟨fun _ => .ok 100, fun _ => false, fun _ _ => true, fun _ => 0⟩

/-- A concrete environment in which every launch succeeds with pid 100 but
every open-for-write fails. -/
def envWOpenFail : Env :=
  ⟨fun _ => .ok 100, fun _ => true, fun _ _ => false, fun _ => 0⟩

/-! ## Theorems -/

theorem parseLoop_nil (cur : Cmd) : parseLoop [] cur = finalize cur := by
  simp [parseLoop]

theorem parseLoop_cons (t : String) (rest : List String) (cur : Cmd) :
    parseLoop (t :: rest) cur =
    if t = "|" then cur :: parseLoop rest emptyCmd
    else if t = "<" then
      (match rest with
       | [] => finalize cur
       | p :: r => parseLoop r { cur with inp := some p })
    else if t = ">" then
      (match rest with
       | [] => finalize cur
       | p :: r => parseLoop r { cur with out := some p, append := false })
    else if t = ">>" then
      (match rest with
       | [] => finalize cur
       | p :: r => parseLoop r { cur with out := some p, append := true })
    else if t = "&" then parseLoop rest { cur with bg := true }
    else parseLoop rest { cur with argv := cur.argv ++ [t] } := by
  by_cases h1 : t = "|"
  · subst h1; cases rest <;> simp [parseLoop]
  · by_cases h2 : t = "<"
    · subst h2; cases rest <;> simp [parseLoop]
    · by_cases h3 : t = ">"
      · subst h3; cases rest <;> simp [parseLoop]
      · by_cases h4 : t = ">>"
        · subst h4; cases rest <;> simp [parseLoop]
        · by_cases h5 : t = "&"
          · subst h5; cases rest <;> simp [parseLoop, h1, h2, h3, h4]
          · cases rest <;> simp [parseLoop, h1, h2, h3, h4, h5]

theorem mem_finalize {c cur : Cmd} (h : c ∈ finalize cur) : keepCmd c = true := by
  unfold finalize at h
  split at h
  · next hk => rw [List.mem_singleton] at h; rw [h]; exact hk
  · simp at h

theorem mem_parseLoop_keep_aux (n : Nat) : ∀ (tokens : List String),
    tokens.length ≤ n → ∀ (cur : Cmd), "|" ∉ tokens →
    ∀ c ∈ parseLoop tokens cur, keepCmd c = true := by
  induction n with
  | zero =>
    intro tokens hlen cur _ c hc
    cases tokens with
    | cons t rest => simp at hlen
    | nil => exact mem_finalize (parseLoop_nil _ ▸ hc)
  | succ n ih =>
    intro tokens hlen cur hp c hc
    cases tokens with
    | nil => exact mem_finalize (parseLoop_nil cur ▸ hc)
    | cons t rest =>
      rw [parseLoop_cons] at hc
      have hrest : "|" ∉ rest := fun h => hp (List.mem_cons_of_mem t h)
      have h1 : ¬t = "|" := fun h => hp (h ▸ List.mem_cons_self t rest)
      rw [if_neg h1] at hc
      simp only [List.length_cons, Nat.succ_le_succ_iff] at hlen
      by_cases h2 : t = "<"
      · rw [if_pos h2] at hc
        cases rest with
        | nil => exact mem_finalize hc
        | cons p r =>
          exact ih r (Nat.le_of_succ_le hlen) _
            (fun h => hrest (List.mem_cons_of_mem p h)) c hc
      · rw [if_neg h2] at hc
        by_cases h3 : t = ">"
        · rw [if_pos h3] at hc
          cases rest with
          | nil => exact mem_finalize hc
          | cons p r =>
            exact ih r (Nat.le_of_succ_le hlen) _
              (fun h => hrest (List.mem_cons_of_mem p h)) c hc
        · rw [if_neg h3] at hc
          by_cases h4 : t = ">>"
          · rw [if_pos h4] at hc
            cases rest with
            | nil => exact mem_finalize hc
            | cons p r =>
              exact ih r (Nat.le_of_succ_le hlen) _
                (fun h => hrest (List.mem_cons_of_mem p h)) c hc
          · rw [if_neg h4] at hc
            by_cases h5 : t = "&"
            · rw [if_pos h5] at hc
              exact ih rest hlen _ hrest c hc
            · rw [if_neg h5] at hc
              exact ih rest hlen _ hrest c hc

theorem mem_parse_tokens_keep (tokens : List String) (c : Cmd)
    (hp : "|" ∉ tokens) (hc : c ∈ parse_tokens tokens) : keepCmd c = true :=
  mem_parseLoop_keep_aux tokens.length tokens (Nat.le_refl _) emptyCmd hp c hc

/-- C3 counterexample: the token sequence consisting of one pipe token.
`parse_tokens` appends the current accumulator unconditionally on a pipe
token, so the produced pipeline contains the all-empty descriptor (empty
`argv`, no redirection, background flag false), contradicting the claim
that such a descriptor is never materialized. -/
theorem C3_counterexample :
    parse_tokens ["|"] = [emptyCmd] ∧ emptyCmd.argv = [] ∧
    emptyCmd.inp = none ∧ emptyCmd.out = none ∧ emptyCmd.bg = false := by
  decide

/-- C3 (amended): for every token sequence containing no pipe token, the
pipeline produced by `parse_tokens` never contains a descriptor with empty
`argv`, both redirection paths unset, and background flag false; only the
trailing accumulator is subject to the drop rule, and a pipe token flushes
the current accumulator even when it is all-empty. -/
theorem C3_no_pipe_no_empty_cmd (tokens : List String) (c : Cmd)
    (hp : "|" ∉ tokens) (hc : c ∈ parse_tokens tokens) :
    ¬(c.argv = [] ∧ c.inp = none ∧ c.out = none ∧ c.bg = false) := by
  intro ⟨ha, hi, ho, hb⟩
  have hk := mem_parse_tokens_keep tokens c hp hc
  rw [keepCmd, ha, hi, ho, hb] at hk
  simp [truthyOpt] at hk

/-- Witness for C3's amended theorem at the token sequence with one word. -/
theorem C3_no_pipe_no_empty_cmd_witness :
    ¬((⟨["ls"], none, none, false, false⟩ : Cmd).argv = [] ∧
      (⟨["ls"], none, none, false, false⟩ : Cmd).inp = none ∧
      (⟨["ls"], none, none, false, false⟩ : Cmd).out = none ∧
      (⟨["ls"], none, none, false, false⟩ : Cmd).bg = false) :=
  C3_no_pipe_no_empty_cmd ["ls"] ⟨["ls"], none, none, false, false⟩
    (by decide) (by decide)

/-- C5 counterexample: in `parse_tokens ["a", "|", "b", "<", "f"]` the input
redirection attaches to the second (hence non-first) stage, contradicting
the claim that only the first stage may carry an input-redirection path. -/
theorem C5_counterexample :
    parse_tokens ["a", "|", "b", "<", "f"] =
      [⟨["a"], none, none, false, false⟩,
       ⟨["b"], some "f", none, false, false⟩] ∧
    ((parse_tokens ["a", "|", "b", "<", "f"]).getLastD emptyCmd).inp =
      some "f" := by
  decide

theorem segWords_cons_word (w : String) (rest : List Seg) :
    segWords (Seg.word w :: rest) = w :: segWords rest := by
  simp [segWords]

theorem segWords_cons_redir (a : Bool) (p : String) (rest : List Seg) :
    segWords (Seg.redir a p :: rest) = segWords rest := by
  simp [segWords]

theorem segRedirs_cons_word (w : String) (rest : List Seg) :
    segRedirs (Seg.word w :: rest) = segRedirs rest := by
  simp [segRedirs]

theorem segRedirs_cons_redir (a : Bool) (p : String) (rest : List Seg) :
    segRedirs (Seg.redir a p :: rest) = (a, p) :: segRedirs rest := by
  simp [segRedirs]

theorem lastOut_cons (ap : Bool × String) (rs : List (Bool × String))
    (o : Option String) : lastOut (ap :: rs) o = lastOut rs (some ap.2) := by
  cases rs with
  | nil => simp [lastOut, List.getLast?_singleton]
  | cons b l =>
    cases hx : (b :: l).getLast? with
    | none => exact absurd (List.getLast?_eq_none_iff.mp hx) (by simp)
    | some x => simp [lastOut, List.getLast?_cons_cons, hx]

theorem lastApp_cons (ap : Bool × String) (rs : List (Bool × String))
    (a : Bool) : lastApp (ap :: rs) a = lastApp rs ap.1 := by
  cases rs with
  | nil => simp [lastApp, List.getLast?_singleton]
  | cons b l =>
    cases hx : (b :: l).getLast? with
    | none => exact absurd (List.getLast?_eq_none_iff.mp hx) (by simp)
    | some x => simp [lastApp, List.getLast?_cons_cons, hx]

theorem lastOut_of_ne_nil {rs : List (Bool × String)} (h : rs ≠ [])
    (o : Option String) (d : Bool × String) :
    lastOut rs o = some ((rs.getLastD d).2) := by
  unfold lastOut
  rw [List.getLastD_eq_getLast?]
  cases hx : rs.getLast? with
  | none => exact absurd (List.getLast?_eq_none_iff.mp hx) h
  | some ap => simp

theorem lastApp_of_ne_nil {rs : List (Bool × String)} (h : rs ≠ [])
    (a : Bool) (d : Bool × String) :
    lastApp rs a = (rs.getLastD d).1 := by
  unfold lastApp
  rw [List.getLastD_eq_getLast?]
  cases hx : rs.getLast? with
  | none => exact absurd (List.getLast?_eq_none_iff.mp hx) h
  | some ap => simp

theorem parseLoop_segs (items : List Seg) : ∀ (cur : Cmd),
    (∀ w ∈ segWords items, ¬isOpTok w) → cur.argv ≠ [] →
    parseLoop (segsTokens items) cur =
      [{ cur with argv := cur.argv ++ segWords items,
                  out := lastOut (segRedirs items) cur.out,
                  append := lastApp (segRedirs items) cur.append }] := by
  induction items with
  | nil =>
    intro cur _ ha
    simp [segsTokens, segWords, segRedirs, lastOut, lastApp, parseLoop_nil,
      finalize, keepCmd, List.isEmpty_eq_false.mpr ha]
  | cons s rest ih =>
    intro cur hw ha
    cases s with
    | word w =>
      have hw0 : ¬isOpTok w :=
        hw w (by rw [segWords_cons_word]; exact List.mem_cons_self w _)
      have htl : ∀ x ∈ segWords rest, ¬isOpTok x := fun x hx =>
        hw x (by rw [segWords_cons_word]; exact List.mem_cons_of_mem w hx)
      have hst : segsTokens (Seg.word w :: rest) = w :: segsTokens rest := by
        simp [segsTokens, segTokens]
      rw [hst, parseLoop_cons]
      unfold isOpTok at hw0
      push_neg at hw0
      obtain ⟨n1, n2, n3, n4, n5⟩ := hw0
      rw [if_neg n1, if_neg n2, if_neg n3, if_neg n4, if_neg n5]
      rw [ih _ htl (by simp)]
      simp [segWords_cons_word, segRedirs_cons_word]
    | redir a p =>
      have hst : segsTokens (Seg.redir a p :: rest) =
          (if a then ">>" else ">") :: p :: segsTokens rest := by
        simp [segsTokens, segTokens]
      have htl : ∀ x ∈ segWords rest, ¬isOpTok x := fun x hx =>
        hw x (by rw [segWords_cons_redir]; exact hx)
      cases a with
      | true =>
        rw [hst, if_pos rfl, parseLoop_cons]
        rw [if_neg (by decide), if_neg (by decide), if_neg (by decide),
          if_pos rfl]
        simp only [segWords_cons_redir, segRedirs_cons_redir,
          lastOut_cons, lastApp_cons]
        exact ih _ htl ha
      | false =>
        rw [hst, if_neg (by simp), parseLoop_cons]
        rw [if_neg (by decide), if_neg (by decide), if_pos rfl]
        simp only [segWords_cons_redir, segRedirs_cons_redir,
          lastOut_cons, lastApp_cons]
        exact ih _ htl ha

/-- C10: within one command whose tokens are a program word followed by any
interleaving of argument words and output redirections (operator plus path),
`parse_tokens` keeps only the last output redirection: the descriptor's
output path and append flag are those of the final redirection, and the
`argv` consists exactly of the program word and the argument words, so none
of the redirection path tokens is appended to `argv`. -/
theorem C10_last_output_redirection_wins (w : String) (items : List Seg)
    (hw0 : ¬isOpTok w) (hw : ∀ x ∈ segWords items, ¬isOpTok x)
    (hr : segRedirs items ≠ []) :
    parse_tokens (w :: segsTokens items) =
      [⟨w :: segWords items, none,
        some (((segRedirs items).getLastD (false, "")).2),
        ((segRedirs items).getLastD (false, "")).1, false⟩] := by
  unfold parse_tokens
  rw [parseLoop_cons]
  unfold isOpTok at hw0
  push_neg at hw0
  obtain ⟨n1, n2, n3, n4, n5⟩ := hw0
  rw [if_neg n1, if_neg n2, if_neg n3, if_neg n4, if_neg n5]
  rw [parseLoop_segs items _ hw (by simp [emptyCmd])]
  rw [lastOut_of_ne_nil hr _ (false, ""), lastApp_of_ne_nil hr _ (false, "")]
  simp [emptyCmd]

/-- Witness for C10 at the token sequence
`cmd > f1 >> f2`: only the final `>> f2` survives. -/
theorem C10_witness :
    parse_tokens ["cmd", ">", "f1", ">>", "f2"] =
      [⟨["cmd"], none, some "f2", true, false⟩] := by
  have h := C10_last_output_redirection_wins "cmd"
    [Seg.redir false "f1", Seg.redir true "f2"]
    (by decide) (by simp [segWords]) (by simp [segRedirs])
  simpa [segsTokens, segTokens, segWords, segRedirs] using h

theorem tokenize_nil : tokenize [] = [] := by
  simp [tokenize]

theorem tokenize_cons (c : Char) (rest : List Char) :
    tokenize (c :: rest) =
    if c.isWhitespace then tokenize rest
    else if c = '>' && rest.head? = some '>' then
      ['>', '>'] :: tokenize rest.tail
    else if isSpecial c then
      [c] :: tokenize rest
    else if isQuote c then
      rest.takeWhile (· != c) :: tokenize ((rest.dropWhile (· != c)).drop 1)
    else
      (c :: rest.takeWhile isWordChar) :: tokenize (rest.dropWhile isWordChar)
    := by
  rw [tokenize]

theorem isQuote_elim {c : Char} (h : isQuote c = true) :
    c = dquote ∨ c = squote := by
  simpa [isQuote] using h

theorem tokenize_cons_quote (c : Char) (rest : List Char)
    (hq : isQuote c = true) :
    tokenize (c :: rest) =
      rest.takeWhile (· != c) :: tokenize ((rest.dropWhile (· != c)).drop 1) := by
  rcases isQuote_elim hq with h | h <;> subst h <;>
    rw [tokenize_cons] <;>
    rw [if_neg (by decide),
      if_neg (fun hh => absurd ((Bool.and_eq_true _ _).mp hh).1 (by decide)),
      if_neg (by decide), if_pos (by decide)]

theorem takeWhile_app_of_all {α : Type} (p : α → Bool) (l l' : List α)
    (h : ∀ x ∈ l, p x = true) :
    (l ++ l').takeWhile p = l ++ l'.takeWhile p := by
  induction l with
  | nil => simp
  | cons a t ih =>
    simp only [List.cons_append, List.takeWhile_cons,
      h a (List.mem_cons_self a t)]
    rw [ih (fun x hx => h x (List.mem_cons_of_mem a hx))]
    simp

theorem dropWhile_app_of_all {α : Type} (p : α → Bool) (l l' : List α)
    (h : ∀ x ∈ l, p x = true) :
    (l ++ l').dropWhile p = l'.dropWhile p := by
  induction l with
  | nil => simp
  | cons a t ih =>
    simp only [List.cons_append, List.dropWhile_cons,
      h a (List.mem_cons_self a t), if_pos]
    exact ih (fun x hx => h x (List.mem_cons_of_mem a hx))

theorem tokenize_matched_quote (q : Char) (content rest : List Char)
    (hq : isQuote q = true) (hc : ∀ x ∈ content, x ≠ q) :
    tokenize (q :: (content ++ q :: rest)) = content :: tokenize rest := by
  rw [tokenize_cons_quote q _ hq]
  have hall : ∀ x ∈ content, (x != q) = true := fun x hx => by
    simp [bne_iff_ne, hc x hx]
  have ht : (content ++ q :: rest).takeWhile (· != q) = content := by
    rw [takeWhile_app_of_all _ _ _ hall, List.takeWhile_cons]
    simp
  have hd : ((content ++ q :: rest).dropWhile (· != q)).drop 1 = rest := by
    rw [dropWhile_app_of_all _ _ _ hall, List.dropWhile_cons]
    simp
  rw [ht, hd]

theorem tokenize_unterminated_quote (q : Char) (content : List Char)
    (hq : isQuote q = true) (hc : ∀ x ∈ content, x ≠ q) :
    tokenize (q :: content) = [content] := by
  rw [tokenize_cons_quote q _ hq]
  have hall : ∀ x ∈ content, (x != q) = true := fun x hx => by
    simp [bne_iff_ne, hc x hx]
  have ht : content.takeWhile (· != q) = content := by
    have := takeWhile_app_of_all _ content [] hall
    simpa using this
  have h0 : content.dropWhile (· != q) = [] := by
    have := dropWhile_app_of_all _ content [] hall
    simpa using this
  have hd : (content.dropWhile (· != q)).drop 1 = [] := by
    rw [h0]
    rfl
  rw [ht, hd, tokenize_nil]

/-- C8: a quote character starts a verbatim segment up to the matching
quote, whose content becomes exactly one token; an unterminated quote
consumes to end of input and still emits a token; the line `a "b c" d`
yields the three word tokens `a`, `b c`, `d`; and `""` emits an
empty-string token. -/
theorem C8_tokenize_quotes (q : Char) (content rest : List Char)
    (hq : isQuote q = true) (hc : ∀ x ∈ content, x ≠ q) :
    tokenize (q :: (content ++ q :: rest)) = content :: tokenize rest ∧
    tokenize (q :: content) = [content] ∧
    tokenizeStr "a \"b c\" d" = ["a", "b c", "d"] ∧
    tokenizeStr "\"\"" = [""] :=
  ⟨tokenize_matched_quote q content rest hq hc,
   tokenize_unterminated_quote q content hq hc,
   by simp [tokenizeStr, tokenize, dquote, squote, isSpecial, isQuote,
     isWordChar],
   by simp [tokenizeStr, tokenize, dquote, squote, isSpecial, isQuote,
     isWordChar]⟩

/-- Witness for C8 at the quoted content `b`. -/
theorem C8_tokenize_quotes_witness :
    tokenize (dquote :: (['b'] ++ dquote :: [])) = ['b'] :: tokenize [] ∧
    tokenize (dquote :: ['b']) = [['b']] ∧
    tokenizeStr "a \"b c\" d" = ["a", "b c", "d"] ∧
    tokenizeStr "\"\"" = [""] :=
  C8_tokenize_quotes dquote ['b'] [] (by decide) (by decide)

theorem issuedIds_eq (evs : List JobEv) : ∀ (m : Nat) (jobs : List (Nat × Job)),
    issuedIds ⟨m, jobs⟩ evs = List.range' m (countReg evs) := by
  induction evs with
  | nil => intro m jobs; simp [issuedIds, countReg]
  | cons e rest ih =>
    intro m jobs
    cases e with
    | reg pids cl =>
      rw [issuedIds]
      rw [show stepJob ⟨m, jobs⟩ (.reg pids cl) =
        (⟨m + 1, jobs ++ [(m, ⟨pids, cl, .running⟩)]⟩ : JobState) from rfl]
      rw [ih]
      rw [show countReg (JobEv.reg pids cl :: rest) = countReg rest + 1 from by
        simp [countReg, List.countP_cons]]
      rw [List.range'_succ]
    | upd pid code =>
      rw [issuedIds]
      rw [show stepJob ⟨m, jobs⟩ (.upd pid code) =
        (⟨m, updateList jobs pid code⟩ : JobState) from rfl]
      rw [ih]
      congr 1
      simp [countReg, List.countP_cons]
    | fgDone jid =>
      rw [issuedIds]
      rw [show stepJob ⟨m, jobs⟩ (.fgDone jid) =
        (⟨m, (fgSetDone ⟨m, jobs⟩ jid).jobs⟩ : JobState) from rfl]
      rw [ih]
      congr 1
      simp [countReg, List.countP_cons]

/-- C6: along any sequence of job-state events (registrations interleaved
with notifier status updates and `fg` status writes), the identifiers
returned by `_register_job` are exactly `1, 2, 3, …` in registration order:
they start at 1, are strictly increasing, and are never reused — status
updates never touch the identifier counter. -/
theorem C6_job_ids_strictly_increasing (evs : List JobEv) :
    issuedIds initialJobState evs = List.range' 1 (countReg evs) ∧
    (issuedIds initialJobState evs).Pairwise (· < ·) ∧
    (issuedIds initialJobState evs).Nodup := by
  have h : issuedIds initialJobState evs = List.range' 1 (countReg evs) :=
    issuedIds_eq evs 1 []
  refine ⟨h, ?_, ?_⟩
  · rw [h]
    exact List.pairwise_lt_range' 1 (countReg evs) 1 Nat.one_pos
  · rw [h]
    exact List.nodup_range' 1 (countReg evs) 1 Nat.one_pos

/-- C7 counterexample: a job owning two pids, the first reaped with exit
code 0 (status becomes `done (0)`), the second reaped without a normal exit
code (status becomes `stopped`): the status moves backwards from `done` to
`stopped`, contradicting the claimed irreversibility. -/
theorem C7_counterexample :
    ((_update_job_status ⟨2, [(1, ⟨[101, 102], "a | b", .running⟩)]⟩ 101
        (some 0)).jobs.headD (0, ⟨[], "", .running⟩)).2.status =
      Status.done (some 0) ∧
    ((_update_job_status
        (_update_job_status ⟨2, [(1, ⟨[101, 102], "a | b", .running⟩)]⟩ 101
          (some 0)) 102 none).jobs.headD
        (0, ⟨[], "", .running⟩)).2.status = Status.stopped := by
  decide

theorem upd_single (jid p : Nat) (cl : String) (s : Status) (q : Nat)
    (c : Option Int) :
    _update_job_status (singleJob jid p cl s) q c =
      singleJob jid p cl (updStatus p s (q, c)) := by
  unfold _update_job_status singleJob updStatus updateList
  by_cases h : q = p
  · subst h
    simp
  · simp [List.mem_singleton, h, updateList]

theorem applyUpds_single (t : List (Nat × Option Int)) :
    ∀ (jid p : Nat) (cl : String) (s : Status),
    applyUpds (singleJob jid p cl s) t =
      singleJob jid p cl (t.foldl (updStatus p) s) := by
  induction t with
  | nil => intro jid p cl s; rfl
  | cons pc rest ih =>
    intro jid p cl s
    show applyUpds (_update_job_status (singleJob jid p cl s) pc.1 pc.2) rest =
      _
    rw [upd_single, ih]
    rfl

theorem foldl_updStatus_notmem (t : List (Nat × Option Int)) :
    ∀ (p : Nat) (s : Status), p ∉ t.map Prod.fst →
    t.foldl (updStatus p) s = s := by
  induction t with
  | nil => intro p s _; rfl
  | cons pc rest ih =>
    intro p s h
    have h1 : pc.1 ≠ p := fun he =>
      h (by rw [List.map_cons, he]; exact List.mem_cons_self p _)
    have h2 : p ∉ rest.map Prod.fst := fun hm =>
      h (by rw [List.map_cons]; exact List.mem_cons_of_mem _ hm)
    show rest.foldl (updStatus p) (updStatus p s pc) = s
    rw [show updStatus p s pc = s from by simp [updStatus, h1]]
    exact ih p s h2

theorem statusHead_single (jid p : Nat) (cl : String) (s : Status) :
    statusHead (singleJob jid p cl s) = s := rfl

/-- C7 (amended): each notifier update overwrites the owning job's status
from the reaped process alone — `done (code)` on a normal exit, `stopped`
otherwise — regardless of the current status.  For a job owning a single
pid, since the OS reaps each pid at most once (updates carry pairwise
distinct pids), the status changes at most once, `running → done (code)` or
`running → stopped`, and never moves backwards; for a job owning several
pids a later reap can overwrite `done` with `stopped` (see the
counterexample), so the claimed irreversibility holds only per-pid, not
per-job. -/
theorem C7_single_pid_monotone (jid p : Nat) (cl : String)
    (t1 t2 : List (Nat × Option Int))
    (hnd : ((t1 ++ t2).map Prod.fst).Nodup) :
    rank (statusHead (applyUpds (singleJob jid p cl .running) t1)) ≤
    rank (statusHead (applyUpds (singleJob jid p cl .running) (t1 ++ t2))) := by
  rw [applyUpds_single, applyUpds_single, statusHead_single, statusHead_single,
    List.foldl_append]
  by_cases hp : p ∈ t1.map Prod.fst
  · have hd : (t1.map Prod.fst).Disjoint (t2.map Prod.fst) :=
      (List.nodup_append.mp (by simpa [List.map_append] using hnd)).2.2
    have hp2 : p ∉ t2.map Prod.fst := fun hm => hd hp hm
    rw [foldl_updStatus_notmem t2 p _ hp2]
  · rw [foldl_updStatus_notmem t1 p .running hp]
    exact Nat.zero_le _

/-- Witness for C7's amended theorem: pid 5 reaped with exit code 0, then
an unrelated pid 7 reaped. -/
theorem C7_single_pid_monotone_witness :
    rank (statusHead (applyUpds (singleJob 1 5 "x" .running) [(5, some 0)])) ≤
    rank (statusHead (applyUpds (singleJob 1 5 "x" .running)
      ([(5, some 0)] ++ [(7, none)]))) :=
  C7_single_pid_monotone 1 5 "x" [(5, some 0)] [(7, none)] (by decide)

theorem truthyOpt_some {o : Option String} (h : truthyOpt o = true) :
    o = some (o.getD "") := by
  cases o with
  | none => simp [truthyOpt] at h
  | some s => rfl

theorem stageOpens_procs (env : Env) (n idx : Nat) (c : Cmd) (st : LoopSt) :
    (stageOpens env n idx c st).procs = st.procs := by
  unfold stageOpens
  dsimp only
  split <;> split <;> rfl

theorem stageOpens_printed_mono (env : Env) (n idx : Nat) (c : Cmd)
    (st : LoopSt) : st.printed <+: (stageOpens env n idx c st).printed := by
  unfold stageOpens
  dsimp only
  split <;> split <;>
    first
      | exact List.prefix_rfl
      | exact List.prefix_append _ _
      | exact (List.prefix_append _ _).trans (List.prefix_append _ _)

theorem stageOpens_openedR (env : Env) (n idx : Nat) (c : Cmd) (st : LoopSt) :
    ∀ pr ∈ (stageOpens env n idx c st).openedR,
      pr ∈ st.openedR ∨ (idx = 0 ∧ c.inp = some pr.1) := by
  unfold stageOpens
  dsimp only
  intro pr hpr
  split at hpr
  · next hB =>
    dsimp only at hpr
    split at hpr
    · next hA =>
      rcases List.mem_append.mp hpr with h | h
      · exact Or.inl h
      · rw [List.mem_singleton] at h
        have h0 : idx = 0 := by
          have := (Bool.and_eq_true _ _).mp hA
          exact of_decide_eq_true this.1
        have hin : c.inp = some (c.inp.getD "") :=
          truthyOpt_some ((Bool.and_eq_true _ _).mp hA).2
        exact Or.inr ⟨h0, by rw [h]; exact hin⟩
    · exact Or.inl hpr
  · split at hpr
    · next hA =>
      rcases List.mem_append.mp hpr with h | h
      · exact Or.inl h
      · rw [List.mem_singleton] at h
        have h0 : idx = 0 := by
          have := (Bool.and_eq_true _ _).mp hA
          exact of_decide_eq_true this.1
        have hin : c.inp = some (c.inp.getD "") :=
          truthyOpt_some ((Bool.and_eq_true _ _).mp hA).2
        exact Or.inr ⟨h0, by rw [h]; exact hin⟩
    · exact Or.inl hpr

theorem stageOpens_openedW (env : Env) (n idx : Nat) (c : Cmd) (st : LoopSt) :
    ∀ pw ∈ (stageOpens env n idx c st).openedW,
      pw ∈ st.openedW ∨
      (idx = n - 1 ∧ c.out = some pw.1 ∧ c.append = pw.2.1) := by
  unfold stageOpens
  dsimp only
  intro pw hpw
  split at hpw
  · next hB =>
    have hst1 :
        (if idx = 0 && truthyOpt c.inp then
          { st with
            openedR := st.openedR ++ [(c.inp.getD "", env.openR (c.inp.getD ""))],
            printed := st.printed ++
              if env.openR (c.inp.getD "") then []
              else ["redirection error (input)"] }
         else st).openedW = st.openedW := by
      split <;> rfl
    dsimp only at hpw
    rw [hst1] at hpw
    rcases List.mem_append.mp hpw with h | h
    · exact Or.inl h
    · rw [List.mem_singleton] at h
      have hlast : idx = n - 1 :=
        of_decide_eq_true ((Bool.and_eq_true _ _).mp hB).1
      have hout : c.out = some (c.out.getD "") :=
        truthyOpt_some ((Bool.and_eq_true _ _).mp hB).2
      exact Or.inr ⟨hlast, by rw [h]; exact hout, by rw [h]⟩
  · split at hpw <;> exact Or.inl hpw

theorem runLoop_nil (env : Env) (n idx : Nat) (st : LoopSt) :
    runLoop env n idx [] st = .finished st := by
  rw [runLoop]

theorem runLoop_cons (env : Env) (n idx : Nat) (c : Cmd) (rest : List Cmd)
    (st : LoopSt) :
    runLoop env n idx (c :: rest) st =
    if c.argv.isEmpty then runLoop env n (idx + 1) rest st
    else
      match env.spawn idx with
      | .notFound =>
        .aborted { stageOpens env n idx c st with
          printed := (stageOpens env n idx c st).printed ++
            [c.argv.headD "" ++ ": command not found"] }
      | .execErr =>
        .aborted { stageOpens env n idx c st with
          printed := (stageOpens env n idx c st).printed ++
            ["failed to execute"] }
      | .ok pid =>
        runLoop env n (idx + 1) rest { stageOpens env n idx c st with
          procs := (stageOpens env n idx c st).procs ++ [pid] } := by
  rw [runLoop]

theorem runLoop_all_empty (env : Env) (n : Nat) : ∀ (rest : List Cmd)
    (idx : Nat) (st : LoopSt), (∀ c ∈ rest, c.argv = []) →
    runLoop env n idx rest st = .finished st := by
  intro rest
  induction rest with
  | nil => intro idx st _; exact runLoop_nil env n idx st
  | cons c r ih =>
    intro idx st h
    rw [runLoop_cons,
      if_pos (by simp [h c (List.mem_cons_self c r)])]
    exact ih (idx + 1) st (fun x hx => h x (List.mem_cons_of_mem c hx))

/-- C9: a command list in which every descriptor has an empty `argv`
launches nothing: every stage is skipped, no pid is launched, no job is
registered, and the call returns `(False, None)`. -/
theorem C9_all_empty_argv (env : Env) (js : JobState) (cmds : List Cmd)
    (h : ∀ c ∈ cmds, c.argv = []) :
    (run_pipeline env js cmds).ret = (false, none) ∧
    (run_pipeline env js cmds).launched = [] ∧
    (run_pipeline env js cmds).jobs = js := by
  unfold run_pipeline
  rw [runLoop_all_empty env cmds.length cmds 0 initSt h]
  simp [initSt]

/-- Witness for C9 at the one-command list with empty argv. -/
theorem C9_all_empty_argv_witness :
    (run_pipeline envOk initialJobState [emptyCmd]).ret = (false, none) ∧
    (run_pipeline envOk initialJobState [emptyCmd]).launched = [] ∧
    (run_pipeline envOk initialJobState [emptyCmd]).jobs = initialJobState :=
  C9_all_empty_argv envOk initialJobState [emptyCmd] (by decide)

theorem runLoop_abort (env : Env) (n : Nat) : ∀ (rest : List Cmd)
    (k idx : Nat) (st : LoopSt),
    k < rest.length →
    (rest.getD k emptyCmd).argv ≠ [] →
    env.spawn (idx + k) = .notFound →
    (∀ j, j < k →
      (rest.getD j emptyCmd).argv = [] ∨ ∃ p, env.spawn (idx + j) = .ok p) →
    ∃ st', runLoop env n idx rest st = .aborted st' ∧
      ((rest.getD k emptyCmd).argv.headD "" ++ ": command not found") ∈
        st'.printed := by
  intro rest
  induction rest with
  | nil => intro k idx st hk; simp at hk
  | cons c r ih =>
    intro k idx st hk hargv hsp hpre
    by_cases hce : c.argv.isEmpty
    · cases k with
      | zero =>
        exact absurd (List.isEmpty_iff.mp hce) (by simpa using hargv)
      | succ k' =>
        rw [runLoop_cons, if_pos hce]
        have hk' : k' < r.length := by
          simpa [Nat.succ_lt_succ_iff] using hk
        have hargv' : (r.getD k' emptyCmd).argv ≠ [] := by
          simpa [List.getD_cons_succ] using hargv
        have hsp' : env.spawn (idx + 1 + k') = .notFound := by
          rw [show idx + 1 + k' = idx + (k' + 1) from by omega]
          exact hsp
        have hpre' : ∀ j, j < k' →
            (r.getD j emptyCmd).argv = [] ∨
            ∃ p, env.spawn (idx + 1 + j) = .ok p := by
          intro j hj
          have := hpre (j + 1) (by omega)
          rw [show idx + 1 + j = idx + (j + 1) from by omega]
          simpa [List.getD_cons_succ] using this
        obtain ⟨st', h1, h2⟩ := ih k' (idx + 1) st hk' hargv' hsp' hpre'
        exact ⟨st', h1, by simpa [List.getD_cons_succ] using h2⟩
    · cases k with
      | zero =>
        rw [runLoop_cons, if_neg hce]
        have hsp0 : env.spawn idx = .notFound := by simpa using hsp
        rw [hsp0]
        refine ⟨_, rfl, ?_⟩
        simp [List.getD_cons_zero]
      | succ k' =>
        rcases hpre 0 (Nat.succ_pos k') with he | ⟨p, hp⟩
        · exact absurd (by simpa using he)
            (by simpa [List.isEmpty_eq_false] using hce)
        · rw [runLoop_cons, if_neg hce]
          have hp0 : env.spawn idx = .ok p := by simpa using hp
          rw [hp0]
          have hk' : k' < r.length := by
            simpa [Nat.succ_lt_succ_iff] using hk
          have hargv' : (r.getD k' emptyCmd).argv ≠ [] := by
            simpa [List.getD_cons_succ] using hargv
          have hsp' : env.spawn (idx + 1 + k') = .notFound := by
            rw [show idx + 1 + k' = idx + (k' + 1) from by omega]
            exact hsp
          have hpre' : ∀ j, j < k' →
              (r.getD j emptyCmd).argv = [] ∨
              ∃ p, env.spawn (idx + 1 + j) = .ok p := by
            intro j hj
            have := hpre (j + 1) (by omega)
            rw [show idx + 1 + j = idx + (j + 1) from by omega]
            simpa [List.getD_cons_succ] using this
          obtain ⟨st', h1, h2⟩ := ih k' (idx + 1) _ hk' hargv' hsp' hpre'
          exact ⟨st', h1, by simpa [List.getD_cons_succ] using h2⟩

/-- C1: if launching stage `i` raises `FileNotFoundError` (the stages
before it either being skipped for empty argv or launching successfully),
`run_pipeline` prints `argv[0]: command not found` for that stage's
program, kills exactly the pids launched for earlier stages, registers no
job, and returns `(False, None)`. -/
theorem C1_notFound_aborts (env : Env) (js : JobState) (cmds : List Cmd)
    (i : Nat) (hi : i < cmds.length)
    (hargv : (cmds.getD i emptyCmd).argv ≠ [])
    (hsp : env.spawn i = .notFound)
    (hpre : ∀ j, j < i →
      (cmds.getD j emptyCmd).argv = [] ∨ ∃ p, env.spawn j = .ok p) :
    (run_pipeline env js cmds).ret = (false, none) ∧
    (run_pipeline env js cmds).killed = (run_pipeline env js cmds).launched ∧
    (run_pipeline env js cmds).jobs = js ∧
    ((cmds.getD i emptyCmd).argv.headD "" ++ ": command not found") ∈
      (run_pipeline env js cmds).printed := by
  obtain ⟨st', hrun, hmem⟩ := runLoop_abort env cmds.length cmds i 0 initSt
    hi hargv (by simpa using hsp)
    (fun j hj => by simpa using hpre j hj)
  unfold run_pipeline
  rw [hrun]
  exact ⟨rfl, rfl, rfl, hmem⟩

/-- Witness for C1 at a one-stage pipeline whose program is missing. -/
theorem C1_notFound_aborts_witness :
    (run_pipeline envNF initialJobState
      [⟨["nosuch"], none, none, false, false⟩]).ret = (false, none) ∧
    (run_pipeline envNF initialJobState
      [⟨["nosuch"], none, none, false, false⟩]).killed =
      (run_pipeline envNF initialJobState
        [⟨["nosuch"], none, none, false, false⟩]).launched ∧
    (run_pipeline envNF initialJobState
      [⟨["nosuch"], none, none, false, false⟩]).jobs = initialJobState ∧
    ((([⟨["nosuch"], none, none, false, false⟩] : List Cmd).getD 0
        emptyCmd).argv.headD "" ++ ": command not found") ∈
      (run_pipeline envNF initialJobState
        [⟨["nosuch"], none, none, false, false⟩]).printed :=
  C1_notFound_aborts envNF initialJobState
    [⟨["nosuch"], none, none, false, false⟩] 0 (by decide) (by decide) rfl
    (fun j hj => absurd hj (Nat.not_lt_zero j))

theorem runLoop_finish (env : Env) (n : Nat) : ∀ (rest : List Cmd)
    (idx : Nat) (st : LoopSt),
    (∀ j, j < rest.length →
      (rest.getD j emptyCmd).argv = [] ∨ ∃ p, env.spawn (idx + j) = .ok p) →
    ∃ st' ext, runLoop env n idx rest st = .finished st' ∧
      st'.procs = st.procs ++ ext ∧
      ((∃ c ∈ rest, c.argv ≠ []) → ext ≠ []) ∧
      st.printed <+: st'.printed := by
  intro rest
  induction rest with
  | nil =>
    intro idx st _
    refine ⟨st, [], runLoop_nil env n idx st, by simp, ?_, List.prefix_rfl⟩
    rintro ⟨c, hc, _⟩
    simp at hc
  | cons c r ih =>
    intro idx st h
    have hshift : ∀ j, j < r.length →
        (r.getD j emptyCmd).argv = [] ∨
        ∃ p, env.spawn (idx + 1 + j) = .ok p := by
      intro j hj
      have := h (j + 1) (by simpa [Nat.succ_lt_succ_iff] using hj)
      rw [show idx + 1 + j = idx + (j + 1) from by omega]
      simpa [List.getD_cons_succ] using this
    by_cases hce : c.argv.isEmpty
    · rw [runLoop_cons, if_pos hce]
      obtain ⟨st', ext, h1, h2, h3, h4⟩ := ih (idx + 1) st hshift
      refine ⟨st', ext, h1, h2, ?_, h4⟩
      rintro ⟨c', hc', hne⟩
      rcases List.mem_cons.mp hc' with rfl | hmem
      · exact absurd (List.isEmpty_iff.mp hce) hne
      · exact h3 ⟨c', hmem, hne⟩
    · rcases h 0 (by simp) with he | ⟨p, hp⟩
      · exact absurd (by simpa using he)
          (by simpa [List.isEmpty_eq_false] using hce)
      · rw [runLoop_cons, if_neg hce]
        have hp0 : env.spawn idx = .ok p := by simpa using hp
        rw [hp0]
        obtain ⟨st', ext, h1, h2, h3, h4⟩ := ih (idx + 1)
          { stageOpens env n idx c st with
            procs := (stageOpens env n idx c st).procs ++ [p] } hshift
        refine ⟨st', p :: ext, h1, ?_, fun _ => by simp, ?_⟩
        · rw [h2]
          dsimp only
          rw [stageOpens_procs]
          simp
        · exact (stageOpens_printed_mono env n idx c st).trans h4

theorem runLoop_env_eq (env env' : Env) (hs : env'.spawn = env.spawn)
    (hr : env'.openR = env.openR) (hw : env'.openW = env.openW) (n : Nat) :
    ∀ (rest : List Cmd) (idx : Nat) (st : LoopSt),
    runLoop env' n idx rest st = runLoop env n idx rest st := by
  intro rest
  induction rest with
  | nil => intro idx st; rw [runLoop_nil, runLoop_nil]
  | cons c r ih =>
    intro idx st
    rw [runLoop_cons, runLoop_cons]
    have hso : stageOpens env' n idx c st = stageOpens env n idx c st := by
      unfold stageOpens
      rw [hr, hw]
    by_cases hce : c.argv.isEmpty
    · rw [if_pos hce, if_pos hce, ih]
    · rw [if_neg hce, if_neg hce, hs, hso]
      cases env.spawn idx with
      | notFound => rfl
      | execErr => rfl
      | ok p => exact ih (idx + 1) _

theorem run_pipeline_of_finished (env : Env) (js : JobState)
    (cmds : List Cmd) (st' : LoopSt)
    (h1 : runLoop env cmds.length 0 cmds initSt = .finished st')
    (hne : st'.procs ≠ [])
    (hbg : (cmds.getLastD emptyCmd).bg = false) :
    run_pipeline env js cmds =
      ⟨(false, some (.exitCode (env.wait (st'.procs.getLastD 0)))),
       st'.procs, [], st'.printed, st'.openedR, st'.openedW, js⟩ := by
  unfold run_pipeline
  rw [h1]
  dsimp only
  rw [if_neg (by simp [List.isEmpty_eq_false.mpr hne]),
    if_neg (by simp [← List.getLastD_eq_getLast?, hbg])]

/-- C2: when every stage launches successfully (or is skipped for empty
argv) and the last command's background flag is clear, `run_pipeline` waits
on the last launched process only and returns its exit code; no job is
registered, and the returned value depends on the environment only through
the last launched pid's wait result (earlier stages' exit statuses are
never consulted). -/
theorem C2_foreground_waits_last (env : Env) (js : JobState)
    (cmds : List Cmd)
    (hall : ∀ j, j < cmds.length →
      (cmds.getD j emptyCmd).argv = [] ∨ ∃ p, env.spawn j = .ok p)
    (hne : ∃ c ∈ cmds, c.argv ≠ [])
    (hbg : (cmds.getLastD emptyCmd).bg = false) :
    (run_pipeline env js cmds).ret =
      (false, some (.exitCode (env.wait
        ((run_pipeline env js cmds).launched.getLastD 0)))) ∧
    (run_pipeline env js cmds).jobs = js ∧
    (run_pipeline env js cmds).launched ≠ [] ∧
    ∀ env' : Env, env'.spawn = env.spawn → env'.openR = env.openR →
      env'.openW = env.openW →
      env'.wait ((run_pipeline env js cmds).launched.getLastD 0) =
        env.wait ((run_pipeline env js cmds).launched.getLastD 0) →
      (run_pipeline env' js cmds).ret = (run_pipeline env js cmds).ret := by
  obtain ⟨st', ext, h1, h2, h3, _⟩ := runLoop_finish env cmds.length cmds 0
    initSt (by simpa using hall)
  have hprocs : st'.procs = ext := by simpa [initSt] using h2
  have hextne : ext ≠ [] := h3 hne
  have hne' : st'.procs ≠ [] := by
    rw [hprocs]
    exact hextne
  have hmain : run_pipeline env js cmds =
      ⟨(false, some (.exitCode (env.wait (st'.procs.getLastD 0)))),
       st'.procs, [], st'.printed, st'.openedR, st'.openedW, js⟩ :=
    run_pipeline_of_finished env js cmds st' h1 hne' hbg
  refine ⟨by rw [hmain], by rw [hmain], ?_, ?_⟩
  · rw [hmain]
    exact hne'
  · intro env' hs hr hw hwv
    have hloop : runLoop env' cmds.length 0 cmds initSt = .finished st' := by
      rw [runLoop_env_eq env env' hs hr hw]
      exact h1
    have hmain' : run_pipeline env' js cmds =
        ⟨(false, some (.exitCode (env'.wait (st'.procs.getLastD 0)))),
         st'.procs, [], st'.printed, st'.openedR, st'.openedW, js⟩ :=
      run_pipeline_of_finished env' js cmds st' hloop hne' hbg
    rw [hmain, hmain']
    rw [hmain] at hwv
    dsimp only at hwv ⊢
    rw [hwv]

/-- Witness for C2 at a one-stage foreground pipeline. -/
theorem C2_foreground_waits_last_witness :
    (run_pipeline envOk initialJobState
      [⟨["a"], none, none, false, false⟩]).ret =
      (false, some (.exitCode (envOk.wait
        ((run_pipeline envOk initialJobState
          [⟨["a"], none, none, false, false⟩]).launched.getLastD 0)))) :=
  (C2_foreground_waits_last envOk initialJobState
    [⟨["a"], none, none, false, false⟩]
    (fun _ _ => Or.inr ⟨0, rfl⟩)
    ⟨⟨["a"], none, none, false, false⟩, List.mem_cons_self _ _, by decide⟩
    (by decide)).1

/-- C4 counterexample: a one-stage pipeline redirecting input from a file
whose open fails.  The failure is reported, but the stage is nonetheless
launched (pid 100) and the pipeline completes normally, returning the exit
code — the pipeline is not aborted, contradicting the claim. -/
theorem C4_counterexample :
    "redirection error (input)" ∈
      (run_pipeline envROpenFail initialJobState
        [⟨["cat"], some "missing", none, false, false⟩]).printed ∧
    (run_pipeline envROpenFail initialJobState
      [⟨["cat"], some "missing", none, false, false⟩]).launched = [100] ∧
    (run_pipeline envROpenFail initialJobState
      [⟨["cat"], some "missing", none, false, false⟩]).ret =
      (false, some (.exitCode 0)) := by
  decide

theorem stageOpens_input_fail (env : Env) (n : Nat) (c : Cmd) (st : LoopSt)
    (hin : truthyOpt c.inp = true)
    (hfail : env.openR (c.inp.getD "") = false) :
    "redirection error (input)" ∈ (stageOpens env n 0 c st).printed := by
  unfold stageOpens
  dsimp only
  rw [if_pos (show (decide ((0 : Nat) = 0) && truthyOpt c.inp) = true by
    simp [hin]), hfail]
  split
  · dsimp only
    refine List.mem_append_left _ ?_
    refine List.mem_append_right _ ?_
    simp
  · refine List.mem_append_right _ ?_
    simp

theorem getLastD_default_irrel {α : Type} (l : List α) (h : l ≠ [])
    (d1 d2 : α) : l.getLastD d1 = l.getLastD d2 := by
  rw [List.getLastD_eq_getLast?, List.getLastD_eq_getLast?,
    List.getLast?_eq_getLast l h]
  simp

theorem stageOpens_openedR_ne0 (env : Env) (n idx : Nat) (c : Cmd)
    (st : LoopSt) (h : idx ≠ 0) :
    (stageOpens env n idx c st).openedR = st.openedR := by
  unfold stageOpens
  dsimp only
  have hA : (decide (idx = 0) && truthyOpt c.inp) = false := by
    simp [h]
  rw [hA]
  split <;> rfl

theorem runLoop_openedR_stable (env : Env) (n : Nat) : ∀ (rest : List Cmd)
    (idx : Nat) (st : LoopSt), idx ≠ 0 →
    (resSt (runLoop env n idx rest st)).openedR = st.openedR := by
  intro rest
  induction rest with
  | nil =>
    intro idx st _
    rw [runLoop_nil]
    rfl
  | cons c r ih =>
    intro idx st h
    rw [runLoop_cons]
    by_cases hce : c.argv.isEmpty
    · rw [if_pos hce]
      exact ih (idx + 1) st (by omega)
    · rw [if_neg hce]
      cases hsp : env.spawn idx with
      | notFound => exact stageOpens_openedR_ne0 env n idx c st h
      | execErr => exact stageOpens_openedR_ne0 env n idx c st h
      | ok p =>
        rw [ih (idx + 1) _ (by omega)]
        exact stageOpens_openedR_ne0 env n idx c st h

theorem runLoop_openedW_from_last (env : Env) (n : Nat) : ∀ (rest : List Cmd)
    (idx : Nat) (st : LoopSt),
    idx + rest.length = n →
    ∀ pw ∈ (resSt (runLoop env n idx rest st)).openedW,
      pw ∈ st.openedW ∨
      ((rest.getLastD emptyCmd).out = some pw.1 ∧
       (rest.getLastD emptyCmd).append = pw.2.1) := by
  intro rest
  induction rest with
  | nil =>
    intro idx st _ pw hpw
    rw [runLoop_nil] at hpw
    exact Or.inl hpw
  | cons c r ih =>
    intro idx st hinv pw hpw
    have hinv' : idx + (r.length + 1) = n := by simpa using hinv
    have htail : ∀ h : (r.getLastD emptyCmd).out = some pw.1 ∧
        (r.getLastD emptyCmd).append = pw.2.1,
        ((c :: r).getLastD emptyCmd).out = some pw.1 ∧
        ((c :: r).getLastD emptyCmd).append = pw.2.1 := by
      intro hh
      cases hr : r with
      | nil =>
        rw [hr] at hh
        exact absurd hh.1 (by simp [emptyCmd])
      | cons c2 r2 =>
        rw [List.getLastD_cons,
          getLastD_default_irrel (c2 :: r2) (List.cons_ne_nil c2 r2) c
            emptyCmd, ← hr]
        rw [hr] at hh
        rw [hr]
        exact hh
    have hsingle : idx = n - 1 → r = [] := by
      intro hlast
      have : r.length = 0 := by omega
      exact List.length_eq_zero.mp this
    have hclast : r = [] → (c :: r).getLastD emptyCmd = c := by
      intro hr
      rw [hr]
      rfl
    rw [runLoop_cons] at hpw
    by_cases hce : c.argv.isEmpty
    · rw [if_pos hce] at hpw
      rcases ih (idx + 1) st (by omega) pw hpw with h | h
      · exact Or.inl h
      · exact Or.inr (htail h)
    · rw [if_neg hce] at hpw
      cases hsp : env.spawn idx with
      | notFound =>
        rw [hsp] at hpw
        rcases stageOpens_openedW env n idx c st pw hpw with h | ⟨hlast, ho, ha⟩
        · exact Or.inl h
        · rw [hclast (hsingle hlast)] at *
          exact Or.inr ⟨by rw [hclast (hsingle hlast)]; exact ho.symm ▸ ho,
            by rw [hclast (hsingle hlast)]; exact ha⟩
      | execErr =>
        rw [hsp] at hpw
        rcases stageOpens_openedW env n idx c st pw hpw with h | ⟨hlast, ho, ha⟩
        · exact Or.inl h
        · exact Or.inr ⟨by rw [hclast (hsingle hlast)]; exact ho,
            by rw [hclast (hsingle hlast)]; exact ha⟩
      | ok p =>
        rw [hsp] at hpw
        rcases ih (idx + 1) _ (by omega) pw hpw with h | h
        · rcases stageOpens_openedW env n idx c st pw h with h' | ⟨hlast, ho, ha⟩
          · exact Or.inl h'
          · exact Or.inr ⟨by rw [hclast (hsingle hlast)]; exact ho,
              by rw [hclast (hsingle hlast)]; exact ha⟩
        · exact Or.inr (htail h)

theorem run_pipeline_openedR (env : Env) (js : JobState) (cmds : List Cmd) :
    (run_pipeline env js cmds).openedR =
    (resSt (runLoop env cmds.length 0 cmds initSt)).openedR := by
  unfold run_pipeline
  cases runLoop env cmds.length 0 cmds initSt with
  | aborted st => rfl
  | finished st =>
    dsimp [resSt]
    split
    · rfl
    · split <;> rfl

theorem run_pipeline_openedW (env : Env) (js : JobState) (cmds : List Cmd) :
    (run_pipeline env js cmds).openedW =
    (resSt (runLoop env cmds.length 0 cmds initSt)).openedW := by
  unfold run_pipeline
  cases runLoop env cmds.length 0 cmds initSt with
  | aborted st => rfl
  | finished st =>
    dsimp [resSt]
    split
    · rfl
    · split <;> rfl

theorem run_pipeline_bg_flag (env : Env) (js : JobState) (cmds : List Cmd)
    (h : (run_pipeline env js cmds).ret.1 = true) :
    (cmds.getLastD emptyCmd).bg = true := by
  revert h
  unfold run_pipeline
  cases runLoop env cmds.length 0 cmds initSt with
  | aborted st => intro h; simp at h
  | finished st =>
    dsimp only
    split
    · intro h; simp at h
    · split
      · next hb =>
        intro _
        exact hb
      · intro h; simp at h

theorem runLoop_top_openedR (env : Env) (js : JobState) (cmds : List Cmd) :
    ∀ pr ∈ (run_pipeline env js cmds).openedR,
      (cmds.headD emptyCmd).inp = some pr.1 := by
  intro pr hpr
  rw [run_pipeline_openedR] at hpr
  cases cmds with
  | nil =>
    rw [runLoop_nil] at hpr
    simp [resSt, initSt] at hpr
  | cons c0 rest =>
    rw [runLoop_cons] at hpr
    by_cases hce : c0.argv.isEmpty
    · rw [if_pos hce, runLoop_openedR_stable env _ rest 1 initSt
        (by omega)] at hpr
      simp [initSt] at hpr
    · rw [if_neg hce] at hpr
      have hfrom : pr ∈ (stageOpens env (c0 :: rest).length 0 c0 initSt).openedR →
          (List.headD (c0 :: rest) emptyCmd).inp = some pr.1 := by
        intro hmem
        rcases stageOpens_openedR env (c0 :: rest).length 0 c0 initSt pr hmem
          with h | ⟨_, h⟩
        · simp [initSt] at h
        · exact h
      cases hsp : env.spawn 0 with
      | notFound =>
        rw [hsp] at hpr
        exact hfrom hpr
      | execErr =>
        rw [hsp] at hpr
        exact hfrom hpr
      | ok p =>
        rw [hsp, runLoop_openedR_stable env _ rest 1 _ (by omega)] at hpr
        exact hfrom hpr

/-- C5 (amended): `parse_tokens` itself attaches redirection paths and the
background flag to whatever stage accumulator is current when the operator
token appears, so non-first stages can carry an input path and non-last
stages an output path or the flag (see the counterexample).  The positional
restriction is enforced by the executor instead: `run_pipeline` attempts an
input open only at stage 0 using the first command's `in` path, attempts an
output open only at the final stage using the last command's `out` path and
append flag, and goes to the background only when the last command's `bg`
flag is set. -/
theorem C5_executor_honors_positions (env : Env) (js : JobState)
    (cmds : List Cmd) :
    (∀ pr ∈ (run_pipeline env js cmds).openedR,
      (cmds.headD emptyCmd).inp = some pr.1) ∧
    (∀ pw ∈ (run_pipeline env js cmds).openedW,
      (cmds.getLastD emptyCmd).out = some pw.1 ∧
      (cmds.getLastD emptyCmd).append = pw.2.1) ∧
    ((run_pipeline env js cmds).ret.1 = true →
      (cmds.getLastD emptyCmd).bg = true) := by
  refine ⟨runLoop_top_openedR env js cmds, ?_, run_pipeline_bg_flag env js cmds⟩
  intro pw hpw
  rw [run_pipeline_openedW] at hpw
  rcases runLoop_openedW_from_last env cmds.length cmds 0 initSt (by simp)
    pw hpw with h | h
  · simp [initSt] at h
  · exact h

/-- Witness for C5's amended theorem: a one-stage pipeline with an input
redirection; the only attempted input open uses the first command's
path. -/
theorem C5_executor_honors_positions_witness :
    (([⟨["a"], some "f", none, false, false⟩] : List Cmd).headD
      emptyCmd).inp = some (("f", true) : String × Bool).1 :=
  (C5_executor_honors_positions envOk initialJobState
    [⟨["a"], some "f", none, false, false⟩]).1 ("f", true) (by decide)

theorem stageOpens_output_fail (env : Env) (n idx : Nat) (c : Cmd)
    (st : LoopSt) (hlast : idx = n - 1)
    (hout : truthyOpt c.out = true)
    (hfail : env.openW (c.out.getD "") c.append = false) :
    "redirection error (output)" ∈ (stageOpens env n idx c st).printed := by
  unfold stageOpens
  dsimp only
  rw [if_pos (show (decide (idx = n - 1) && truthyOpt c.out) = true by
    simp [hlast, hout]), hfail, if_neg Bool.false_ne_true]
  refine List.mem_append_right _ ?_
  simp

theorem runLoop_printed_mono (env : Env) (n : Nat) : ∀ (rest : List Cmd)
    (idx : Nat) (st : LoopSt),
    st.printed <+: (resSt (runLoop env n idx rest st)).printed := by
  intro rest
  induction rest with
  | nil =>
    intro idx st
    rw [runLoop_nil]
    exact List.prefix_rfl
  | cons c r ih =>
    intro idx st
    rw [runLoop_cons]
    by_cases hce : c.argv.isEmpty
    · rw [if_pos hce]
      exact ih (idx + 1) st
    · rw [if_neg hce]
      cases hsp : env.spawn idx with
      | notFound =>
        dsimp only [resSt]
        exact (stageOpens_printed_mono env n idx c st).trans
          (List.prefix_append _ _)
      | execErr =>
        dsimp only [resSt]
        exact (stageOpens_printed_mono env n idx c st).trans
          (List.prefix_append _ _)
      | ok p =>
        dsimp only
        exact (stageOpens_printed_mono env n idx c st).trans
          (ih (idx + 1) { stageOpens env n idx c st with
            procs := (stageOpens env n idx c st).procs ++ [p] })

theorem runLoop_input_fail (env : Env) (n : Nat) (c0 : Cmd)
    (rest : List Cmd) (st : LoopSt)
    (hargv : c0.argv ≠ [])
    (hin : truthyOpt c0.inp = true)
    (hfail : env.openR (c0.inp.getD "") = false) :
    "redirection error (input)" ∈
      (resSt (runLoop env n 0 (c0 :: rest) st)).printed := by
  have hce : c0.argv.isEmpty = false := List.isEmpty_eq_false.mpr hargv
  rw [runLoop_cons, if_neg (by simp [hce])]
  have hmem : "redirection error (input)" ∈
      (stageOpens env n 0 c0 st).printed :=
    stageOpens_input_fail env n c0 st hin hfail
  cases hsp : env.spawn 0 with
  | notFound =>
    dsimp only [resSt]
    exact List.mem_append_left _ hmem
  | execErr =>
    dsimp only [resSt]
    exact List.mem_append_left _ hmem
  | ok p =>
    dsimp only
    exact (runLoop_printed_mono env n rest 1 _).subset hmem

theorem runLoop_output_fail (env : Env) (n : Nat) : ∀ (rest : List Cmd)
    (idx : Nat) (st : LoopSt),
    idx + rest.length = n →
    (∀ j, j < rest.length →
      (rest.getD j emptyCmd).argv = [] ∨ ∃ p, env.spawn (idx + j) = .ok p) →
    (rest.getLastD emptyCmd).argv ≠ [] →
    truthyOpt (rest.getLastD emptyCmd).out = true →
    env.openW ((rest.getLastD emptyCmd).out.getD "")
      (rest.getLastD emptyCmd).append = false →
    "redirection error (output)" ∈ (resSt (runLoop env n idx rest st)).printed := by
  intro rest
  induction rest with
  | nil =>
    intro idx st _ _ hargv _ _
    exact absurd rfl hargv
  | cons c r ih =>
    intro idx st hinv hall hargv hout hfail
    have hshift : ∀ j, j < r.length →
        (r.getD j emptyCmd).argv = [] ∨
        ∃ p, env.spawn (idx + 1 + j) = .ok p := by
      intro j hj
      have := hall (j + 1) (by simpa [Nat.succ_lt_succ_iff] using hj)
      rw [show idx + 1 + j = idx + (j + 1) from by omega]
      simpa [List.getD_cons_succ] using this
    by_cases hre : r = []
    · subst hre
      have hlastc : (([c] : List Cmd).getLastD emptyCmd) = c := rfl
      rw [hlastc] at hargv hout hfail
      have hce : c.argv.isEmpty = false := List.isEmpty_eq_false.mpr hargv
      have hlast : idx = n - 1 := by
        simp at hinv
        omega
      rw [runLoop_cons, if_neg (by simp [hce])]
      have hmem : "redirection error (output)" ∈
          (stageOpens env n idx c st).printed :=
        stageOpens_output_fail env n idx c st hlast hout hfail
      cases hsp : env.spawn idx with
      | notFound =>
        dsimp only [resSt]
        exact List.mem_append_left _ hmem
      | execErr =>
        dsimp only [resSt]
        exact List.mem_append_left _ hmem
      | ok p =>
        dsimp only
        rw [runLoop_nil]
        exact hmem
    · have hlasttail : (c :: r).getLastD emptyCmd = r.getLastD emptyCmd := by
        cases r with
        | nil => exact absurd rfl hre
        | cons a b =>
          rw [List.getLastD_cons,
            getLastD_default_irrel (a :: b) (List.cons_ne_nil a b) c emptyCmd]
      rw [hlasttail] at hargv hout hfail
      have hinv' : idx + 1 + r.length = n := by
        simp at hinv
        omega
      by_cases hce : c.argv.isEmpty
      · rw [runLoop_cons, if_pos hce]
        exact ih (idx + 1) st hinv' hshift hargv hout hfail
      · rcases hall 0 (Nat.succ_pos _) with he | ⟨p, hp⟩
        · exact absurd (by simpa using he)
            (by simpa [List.isEmpty_eq_false] using hce)
        · rw [runLoop_cons, if_neg hce]
          have hp0 : env.spawn idx = .ok p := by simpa using hp
          rw [hp0]
          dsimp only
          exact ih (idx + 1) _ hinv' hshift hargv hout hfail

theorem run_pipeline_launched (env : Env) (js : JobState) (cmds : List Cmd) :
    (run_pipeline env js cmds).launched =
    (resSt (runLoop env cmds.length 0 cmds initSt)).procs := by
  unfold run_pipeline
  cases runLoop env cmds.length 0 cmds initSt with
  | aborted st => rfl
  | finished st =>
    dsimp [resSt]
    split
    · rfl
    · split <;> rfl

theorem run_pipeline_printed_sub (env : Env) (js : JobState)
    (cmds : List Cmd) :
    ∀ m ∈ (resSt (runLoop env cmds.length 0 cmds initSt)).printed,
      m ∈ (run_pipeline env js cmds).printed := by
  unfold run_pipeline
  cases runLoop env cmds.length 0 cmds initSt with
  | aborted st => exact fun m hm => hm
  | finished st =>
    dsimp [resSt]
    split
    · exact fun m hm => hm
    · split
      · exact fun m hm => List.mem_append_left _ hm
      · exact fun m hm => hm

theorem run_pipeline_of_finished_bg (env : Env) (js : JobState)
    (cmds : List Cmd) (st' : LoopSt)
    (h1 : runLoop env cmds.length 0 cmds initSt = .finished st')
    (hne : st'.procs ≠ [])
    (hbg : (cmds.getLastD emptyCmd).bg = true) :
    run_pipeline env js cmds =
      ⟨(true, some (.jobId js.next)), st'.procs, [],
       st'.printed ++
         ["[job " ++ toString js.next ++ "] " ++ toString (st'.procs.headD 0)],
       st'.openedR, st'.openedW,
       ⟨js.next + 1, js.jobs ++ [(js.next, ⟨st'.procs,
         String.intercalate " " (cmds.map (·.argv)).flatten, .running⟩)]⟩⟩ := by
  unfold run_pipeline
  rw [h1]
  dsimp only
  rw [if_neg (by simp [List.isEmpty_eq_false.mpr hne]),
    if_pos (by simp [← List.getLastD_eq_getLast?, hbg])]
  rfl

/-- C4 (amended): when opening a redirection file (input or output) fails,
the failure is reported, but the pipeline is NOT aborted: the failed open
returns `None`, the stage is launched with the interpreter's inherited
stream in place of the file, every stage still runs, and the pipeline
completes exactly as if no redirection had been requested — a foreground
pipeline returns the last launched process's exit code with no job
registered, and a background pipeline still registers a Job over all
launched pids and returns its id. -/
theorem C4_open_failure_continues (env : Env) (js : JobState)
    (cmds : List Cmd)
    (hall : ∀ j, j < cmds.length →
      (cmds.getD j emptyCmd).argv = [] ∨ ∃ p, env.spawn j = .ok p)
    (hne : ∃ c ∈ cmds, c.argv ≠ []) :
    ((cmds.headD emptyCmd).argv ≠ [] →
      truthyOpt (cmds.headD emptyCmd).inp = true →
      env.openR ((cmds.headD emptyCmd).inp.getD "") = false →
      "redirection error (input)" ∈ (run_pipeline env js cmds).printed) ∧
    ((cmds.getLastD emptyCmd).argv ≠ [] →
      truthyOpt (cmds.getLastD emptyCmd).out = true →
      env.openW ((cmds.getLastD emptyCmd).out.getD "")
        (cmds.getLastD emptyCmd).append = false →
      "redirection error (output)" ∈ (run_pipeline env js cmds).printed) ∧
    (run_pipeline env js cmds).launched ≠ [] ∧
    ((cmds.getLastD emptyCmd).bg = false →
      (run_pipeline env js cmds).ret =
        (false, some (.exitCode (env.wait
          ((run_pipeline env js cmds).launched.getLastD 0)))) ∧
      (run_pipeline env js cmds).jobs = js) ∧
    ((cmds.getLastD emptyCmd).bg = true →
      (run_pipeline env js cmds).ret = (true, some (.jobId js.next)) ∧
      (run_pipeline env js cmds).jobs.next = js.next + 1 ∧
      (run_pipeline env js cmds).jobs.jobs =
        js.jobs ++ [(js.next, ⟨(run_pipeline env js cmds).launched,
          String.intercalate " " (cmds.map (·.argv)).flatten, .running⟩)]) := by
  obtain ⟨st', ext, h1, h2, h3, _⟩ := runLoop_finish env cmds.length cmds 0
    initSt (by simpa using hall)
  have hprocs : st'.procs = ext := by simpa [initSt] using h2
  have hne' : st'.procs ≠ [] := by
    rw [hprocs]
    exact h3 hne
  have hlaunch : (run_pipeline env js cmds).launched = st'.procs := by
    rw [run_pipeline_launched, h1]
    rfl
  refine ⟨?_, ?_, ?_, ?_, ?_⟩
  · intro hargv hin hfail
    cases cmds with
    | nil => exact absurd rfl hargv
    | cons c0 rest =>
      refine run_pipeline_printed_sub env js (c0 :: rest) _ ?_
      exact runLoop_input_fail env (c0 :: rest).length c0 rest initSt
        hargv hin hfail
  · intro hargv hout hfail
    refine run_pipeline_printed_sub env js cmds _ ?_
    exact runLoop_output_fail env cmds.length cmds 0 initSt (by simp)
      (by simpa using hall) hargv hout hfail
  · rw [hlaunch]
    exact hne'
  · intro hbg
    have hmain := run_pipeline_of_finished env js cmds st' h1 hne' hbg
    rw [hmain]
    exact ⟨rfl, rfl⟩
  · intro hbg
    have hmain := run_pipeline_of_finished_bg env js cmds st' h1 hne' hbg
    rw [hmain]
    exact ⟨rfl, rfl, rfl⟩

/-- Witness for C4's amended theorem: an input-open failure on a foreground
stage, an output-open failure on a foreground stage, and an output-open
failure on a background stage that still registers job 1. -/
theorem C4_open_failure_continues_witness :
    "redirection error (input)" ∈
      (run_pipeline envROpenFail initialJobState
        [⟨["cat"], some "m", none, false, false⟩]).printed ∧
    "redirection error (output)" ∈
      (run_pipeline envWOpenFail initialJobState
        [⟨["ls"], none, some "out", false, false⟩]).printed ∧
    (run_pipeline envWOpenFail initialJobState
      [⟨["ls"], none, some "out", false, true⟩]).ret =
      (true, some (.jobId initialJobState.next)) ∧
    (run_pipeline envWOpenFail initialJobState
      [⟨["ls"], none, some "out", false, true⟩]).jobs.next =
      initialJobState.next + 1 :=
  ⟨(C4_open_failure_continues envROpenFail initialJobState
      [⟨["cat"], some "m", none, false, false⟩]
      (fun _ _ => Or.inr ⟨100, rfl⟩)
      ⟨⟨["cat"], some "m", none, false, false⟩, List.mem_cons_self _ _,
        by decide⟩).1 (by decide) (by decide) rfl,
   (C4_open_failure_continues envWOpenFail initialJobState
      [⟨["ls"], none, some "out", false, false⟩]
      (fun _ _ => Or.inr ⟨100, rfl⟩)
      ⟨⟨["ls"], none, some "out", false, false⟩, List.mem_cons_self _ _,
        by decide⟩).2.1 (by decide) (by decide) rfl,
   ((C4_open_failure_continues envWOpenFail initialJobState
      [⟨["ls"], none, some "out", false, true⟩]
      (fun _ _ => Or.inr ⟨100, rfl⟩)
      ⟨⟨["ls"], none, some "out", false, true⟩, List.mem_cons_self _ _,
        by decide⟩).2.2.2.2 (by decide)).1,
   ((C4_open_failure_continues envWOpenFail initialJobState
      [⟨["ls"], none, some "out", false, true⟩]
      (fun _ _ => Or.inr ⟨100, rfl⟩)
      ⟨⟨["ls"], none, some "out", false, true⟩, List.mem_cons_self _ _,
        by decide⟩).2.2.2.2 (by decide)).2.1⟩

end SimpleShell
